import Mathlib

/-!
Verification of pgbackuproll (src/main.rs), a rolling database-backup
retention tool.  Filenames are modelled as lists of characters,
timestamps as calendar records with second precision, and the
`make_room` reclamation loop as a total function over an explicit world
state, with oracles standing in for the external filesystem statistics
and for the sizes written by the external tools.
-/

/-- Filenames are modelled as lists of characters. -/
abbrev Str : Type := List Char

/-- Numeric value of an ASCII digit character. -/
def chVal (c : Char) : Nat := c.toNat - 48

/-- Test for an ASCII digit character. -/
def isDigitCh (c : Char) : Bool := decide (48 ≤ c.toNat) && decide (c.toNat ≤ 57)

/-- Fixed-width big-endian decimal rendering, as produced by the chrono
format items `%Y`, `%m`, `%d`, `%H`, `%M`, `%S` for in-range values. -/
def padDigits : Nat → Nat → Str
  | 0, _ => []
  | k + 1, n => padDigits k (n / 10) ++ [Nat.digitChar (n % 10)]

/-- A timestamp with second precision: the component view of a
`chrono::DateTime<Utc>` as carried by backup filenames.  The year is
signed, as in chrono's proleptic Gregorian calendar; a `second` of 60
is chrono's parsed representation of a leap second. -/
structure DT where
  year : Int
  month : Nat
  day : Nat
  hour : Nat
  minute : Nat
  second : Nat
deriving DecidableEq

/-- Gregorian leap-year rule on the proleptic signed year. -/
def isLeap (y : Int) : Bool :=
  decide (y % 4 = 0) && (decide (y % 100 ≠ 0) || decide (y % 400 = 0))

/-- Length of a month in the proleptic Gregorian calendar. -/
def daysInMonth (y : Int) (m : Nat) : Nat :=
  if m = 2 then (if isLeap y then 29 else 28)
  else if m = 4 ∨ m = 6 ∨ m = 9 ∨ m = 11 then 30
  else 31

/-- Validity of a timestamp as rendered by `Utc::now().format(...)`:
a nonnegative year within the four-digit `%Y` width, real calendar
fields, and a real second (the system clock never reports the leap
value 60). -/
def DT.valid (t : DT) : Bool :=
  decide (0 ≤ t.year ∧ t.year ≤ 9999 ∧ 1 ≤ t.month ∧ t.month ≤ 12 ∧ 1 ≤ t.day ∧
    t.day ≤ daysInMonth t.year t.month ∧ t.hour ≤ 23 ∧ t.minute ≤ 59 ∧ t.second ≤ 59)

/-- The field validation chrono performs when assembling a parsed
timestamp: the year within `NaiveDate`'s range, real month, day, hour
and minute, and a second of at most 60 (60 denoting a leap second). -/
def DT.decodeOk (t : DT) : Bool :=
  decide (-262144 ≤ t.year ∧ t.year ≤ 262143 ∧ 1 ≤ t.month ∧ t.month ≤ 12 ∧ 1 ≤ t.day ∧
    t.day ≤ daysInMonth t.year t.month ∧ t.hour ≤ 23 ∧ t.minute ≤ 59 ∧ t.second ≤ 60)

/-- Days since 1970-01-01 of a civil date (the standard era-based
algorithm used by calendar libraries). -/
def daysFromCivil (y m d : Int) : Int :=
  let yy := if m ≤ 2 then y - 1 else y
  let era := (if 0 ≤ yy then yy else yy - 399) / 400
  let yoe := yy - era * 400
  let mp := (m + 9) % 12
  let doy := (153 * mp + 2) / 5 + d - 1
  let doe := yoe * 365 + yoe / 4 - yoe / 100 + doy
  era * 146097 + doe - 719468

/-- The instant of a timestamp in seconds since the Unix epoch: the
quantity underlying `chrono::Duration` subtraction.  A parsed leap
second (stored by chrono as second 59 with a nanosecond overflow of a
full second) contributes one further second, exactly as it does to
chrono's duration arithmetic. -/
def DT.toSecs (t : DT) : Int :=
  daysFromCivil t.year t.month t.day * 86400 + t.hour * 3600 + t.minute * 60 + t.second

/-- The comparison key of `chrono::DateTime` used by the `BTreeMap`:
chrono orders by the pair of whole seconds and nanosecond fraction, so
a parsed leap second sorts strictly between second 59 and the next
minute, distinct from both. -/
def DT.ordKey (t : DT) : Int × Int :=
  if t.second = 60 then (t.toSecs - 1, 1) else (t.toSecs, 0)

/-- Rendering of `UNCOMPRESSED_FILENAME_FORMAT` ("%Y-%m-%d_%H-%M-%S.sql")
and `COMPRESSED_FILENAME_FORMAT` ("%Y-%m-%d_%H-%M-%S.sql.gz"), with
chrono's zero-padding of each numeric field to its width. -/
def encodeName (t : DT) (compressed : Bool) : Str :=
  padDigits 4 t.year.toNat ++ '-' :: padDigits 2 t.month ++ '-' :: padDigits 2 t.day ++
  '_' :: padDigits 2 t.hour ++ '-' :: padDigits 2 t.minute ++ '-' :: padDigits 2 t.second ++
  (if compressed then ['.', 's', 'q', 'l', '.', 'g', 'z'] else ['.', 's', 'q', 'l'])

/-- Unicode whitespace, as the `str::trim_start` chrono applies before
each numeric field. -/
def isRustWs (c : Char) : Bool :=
  decide (c.toNat = 0x09 ∨ c.toNat = 0x0A ∨ c.toNat = 0x0B ∨ c.toNat = 0x0C ∨
    c.toNat = 0x0D ∨ c.toNat = 0x20 ∨ c.toNat = 0x85 ∨ c.toNat = 0xA0 ∨
    c.toNat = 0x1680 ∨ (0x2000 ≤ c.toNat ∧ c.toNat ≤ 0x200A) ∨ c.toNat = 0x2028 ∨
    c.toNat = 0x2029 ∨ c.toNat = 0x202F ∨ c.toNat = 0x205F ∨ c.toNat = 0x3000)

/-- Leading-whitespace trim, applied by chrono before every numeric
field of the format. -/
def trimWs : Str → Str
  | [] => []
  | c :: cs => if isRustWs c then trimWs cs else c :: cs

/-- The digit loop of chrono's `scan::number`: greedily take leading
ASCII digits while fewer than `maxW` have been taken, accumulating the
value; returns the digit count, the value and the rest. -/
def scanNum (maxW : Nat) (k v : Nat) : Str → Nat × Nat × Str
  | [] => (k, v, [])
  | c :: cs =>
    if k < maxW ∧ isDigitCh c = true then scanNum maxW (k + 1) (v * 10 + chVal c) cs
    else (k, v, c :: cs)

/-- chrono's `scan::number(s, 1, maxW)`: at least one and at most
`maxW` leading digits, taken greedily. -/
def number1 (maxW : Nat) (cs : Str) : Option (Nat × Str) :=
  match scanNum maxW 0 0 cs with
  | (0, _, _) => none
  | (_ + 1, v, rest) => some (v, rest)

/-- The `%Y` field as chrono parses it: without an explicit sign at
most four digits are taken (the field width); an explicit `-` or `+`
admits any number of digits. -/
def parseYear : Str → Option (Int × Str)
  | [] => none
  | c :: cs =>
    if c = '-' then (number1 cs.length cs).map (fun vr => (-(vr.1 : Int), vr.2))
    else if c = '+' then (number1 cs.length cs).map (fun vr => ((vr.1 : Int), vr.2))
    else (number1 4 (c :: cs)).map (fun vr => ((vr.1 : Int), vr.2))

/-- One literal character of the format string; chrono matches
literals exactly, with no trimming. -/
def expectCh (c : Char) : Str → Option Str
  | c2 :: cs => if c2 = c then some cs else none
  | [] => none

/-- Parse of the shared `%Y-%m-%d_%H-%M-%S` prefix with the semantics
of `Utc.datetime_from_str`: whitespace is trimmed before each numeric
field, each numeric field takes one up to its width of digits
greedily, the year may be signed, and the assembled fields are
validated as chrono validates them (admitting the leap second 60). -/
def parseTs (cs : Str) : Option (DT × Str) := do
  let (y, cs) ← parseYear (trimWs cs)
  let cs ← expectCh '-' cs
  let (mo, cs) ← number1 2 (trimWs cs)
  let cs ← expectCh '-' cs
  let (d, cs) ← number1 2 (trimWs cs)
  let cs ← expectCh '_' cs
  let (h, cs) ← number1 2 (trimWs cs)
  let cs ← expectCh '-' cs
  let (mi, cs) ← number1 2 (trimWs cs)
  let cs ← expectCh '-' cs
  let (s, cs) ← number1 2 (trimWs cs)
  let t : DT := ⟨y, mo, d, h, mi, s⟩
  if t.decodeOk then some (t, cs) else none

/-- Decoding of a backup filename as in `delete_one` (lines 68-69):
`Utc.datetime_from_str` is tried with the uncompressed format first
and with the compressed one on failure.  The two formats share the
timestamp prefix, on which the parser is deterministic, so decoding is
the shared prefix followed by one of the two literal suffixes; chrono
rejects trailing input, so the suffix must end the name. -/
def decodeName (cs : Str) : Option (DT × Bool) :=
  match parseTs cs with
  | some (t, rest) =>
    if rest = ['.', 's', 'q', 'l'] then some (t, false)
    else if rest = ['.', 's', 'q', 'l', '.', 'g', 'z'] then some (t, true)
    else none
  | none => none

/-- Characters after the last dot of the tail of a file name, if any
dot occurs there. -/
def afterLastDot : Str → Option Str
  | [] => none
  | c :: rest => if c = '.' then some ((afterLastDot rest).getD rest) else afterLastDot rest

/-- Model of `Path::extension` on a plain file name: the part after the
last dot, where a dot in leading position does not begin an extension. -/
def rsExtension : Str → Option Str
  | [] => none
  | _ :: rest => afterLastDot rest

/-- The classification `path.extension() == Some("gz")` used by
`make_room` to recognise compressed backups. -/
def isGz (name : Str) : Bool := decide (rsExtension name = some ['g', 'z'])

/-- An index entry: its timestamp key and the stored filename, as in
the `BTreeMap<DateTime<Utc>, String>` of `delete_one`. -/
abbrev Entry : Type := DT × Str

/-- Three-element sliding windows over a list, as produced by
`Itertools::tuple_windows` on the ascending map iterator. -/
def windows3 {α : Type} : List α → List (α × α × α)
  | a :: b :: c :: rest => (a, b, c) :: windows3 (b :: c :: rest)
  | _ => []

/-- Ascending sort of a two-element array, as done by `diffs.sort()`. -/
def sortPair (a b : Int) : Int × Int := if a ≤ b then (a, b) else (b, a)

/-- Strict lexicographic order on sorted gap pairs: the `Ord` instance
of `[Duration; 2]` used by `min_by_key`. -/
def pairLt (p q : Int × Int) : Prop := p.1 < q.1 ∨ (p.1 = q.1 ∧ p.2 < q.2)

instance (p q : Int × Int) : Decidable (pairLt p q) := by
  unfold pairLt; exact inferInstance

/-- Sort key of a window: the two gaps adjacent to the middle entry,
`[curr - prev, next - curr]`, sorted ascending. -/
def winKey (w : Entry × Entry × Entry) : Int × Int :=
  sortPair (w.2.1.1.toSecs - w.1.1.toSecs) (w.2.2.1.toSecs - w.2.1.1.toSecs)

/-- The fold underlying `Iterator::min_by_key`: a later element
replaces the running minimum only when its key is strictly smaller. -/
def minFold {α : Type} (f : α → Int × Int) (acc : α) : List α → α
  | [] => acc
  | y :: ys => minFold f (if pairLt (f y) (f acc) then y else acc) ys

/-- Model of `Iterator::min_by_key`; among equal keys the element
encountered first is returned. -/
def minByKey {α : Type} (f : α → Int × Int) : List α → Option α
  | [] => none
  | x :: xs => some (minFold f x xs)

/-- The selection of `delete_one` (src/main.rs lines 73-81): nothing
for at most one entry, the older of exactly two, and otherwise the
middle filename of the window minimising the sorted gap pair. -/
def selectVictim : List Entry → Option Str
  | [] => none
  | [_] => none
  | [a, _] => some a.2
  | a :: b :: c :: rest =>
    (minByKey winKey (windows3 (a :: b :: c :: rest))).map (fun w => w.2.1.2)

/-- A directory entry name as returned by the OS: either valid text or
not (the `into_string` conversion in `delete_one` fails on the
latter). -/
inductive RawName : Type where
  | utf8 (s : Str)
  | invalid
deriving DecidableEq

/-- The error cases of the modelled fragment: a filename matching
neither pattern, a non-text filename, and a failing external tool. -/
inductive Err : Type where
  | parse (name : Str)
  | notUtf8
  | toolFailed (tool : Str)
deriving DecidableEq

/-- Observable side effects of a run: a verbose log line, a `gzip`
invocation, a file deletion, and a `pg_dumpall` invocation writing a
new backup file. -/
inductive Event : Type where
  | print (line : Str)
  | compress (path : Str)
  | delete (file : Str)
  | dump (file : Str)
deriving DecidableEq

/-- Insertion into the ascending `BTreeMap`, ordered by the `DateTime`
comparison key; on an equal key the stored key is kept and the value
replaced. -/
def insertSorted : List Entry → DT → Str → List Entry
  | [], t, n => [(t, n)]
  | e :: rest, t, n =>
    if pairLt t.ordKey e.1.ordKey then (t, n) :: e :: rest
    else if t.ordKey = e.1.ordKey then (e.1, n) :: rest
    else e :: insertSorted rest t n

/-- The index-building loop of `delete_one` (lines 65-72): every
directory entry name must be valid text and decode under one of the
two patterns, and the first failure aborts the whole build. -/
def buildIndexAux (acc : List Entry) : List RawName → Except Err (List Entry)
  | [] => .ok acc
  | .invalid :: _ => .error .notUtf8
  | .utf8 n :: ns =>
    match decodeName n with
    | none => .error (.parse n)
    | some (t, _) => buildIndexAux (insertSorted acc t n) ns

/-- Pure model of `delete_one`: build the index, pick the victim and
log it when verbose.  A returned filename is the file then deleted;
`none` models the `Ok(false)` return with nothing deleted. -/
def deleteOneV (verbose : Bool) (names : List RawName) : Except Err (Option Str) × List Event :=
  match buildIndexAux [] names with
  | .error e => (.error e, [])
  | .ok idx =>
    match selectVictim idx with
    | none => (.ok none, [])
    | some f => (.ok (some f), if verbose then [.print f] else [])

/-- Snapshot of the backup directory and its filesystem: entry names
with their byte sizes, and the available/total bytes reported for the
containing mount.  Directory entry names are never empty. -/
structure World : Type where
  avail : Nat
  total : Nat
  entries : List (Str × Nat)
  names_ne : entries.all (fun e => !e.1.isEmpty) = true

/-- Oracles for what the program does not compute itself: the size
`gzip` leaves behind and the filesystem statistics observed after each
external effect. -/
structure Env : Type where
  gzSize : World → Str → Nat
  fsAfterCompress : World → Str → Nat × Nat
  fsAfterDelete : World → Str → Nat × Nat

/-- Fuel-bounded floor of the base-two logarithm of a positive
integer; the fuel of 256 covers every value arising from 64-bit
inputs here (all are below `2 ^ 129`). -/
def log2Aux : Nat → Nat → Nat
  | 0, _ => 0
  | fuel + 1, n => if 2 ≤ n then log2Aux fuel (n / 2) + 1 else 0

/-- Floor of the base-two logarithm. -/
def log2N (n : Nat) : Nat := log2Aux 256 n

/-- Round-to-nearest-even of an integer to 53 significant bits: the
exact value of the Rust `u64 as f64` conversion (no 64-bit integer
overflows in binary64). -/
def rnd53 (n : Nat) : Nat :=
  if n < 2 ^ 53 then n
  else
    let sh := log2N n - 52
    let q := n / 2 ^ sh
    let r := n % 2 ^ sh
    let half := 2 ^ (sh - 1)
    if half < r ∨ (r = half ∧ q % 2 = 1) then (q + 1) * 2 ^ sh else q * 2 ^ sh

/-- The IEEE-754 binary64 quotient of two positive integers, as the
integer `2 ^ 116 * value`.  With `e` the binary exponent of `x / y`
(so `2 ^ e ≤ x / y < 2 ^ (e + 1)`, and `E = e + 64 ≥ 0` for the
operand ranges reaching this function), the double's value is
`m * 2 ^ (e - 52)` where `m` is the round-to-nearest-even 53-bit
mantissa of `x / y`; the result is the integer `m * 2 ^ E`.  All
quotients arising from 64-bit operands are finite and normal, so this
is the exact value of Rust's f64 division scaled by `2 ^ 116`. -/
def fdiv53Scaled (x y : Nat) : Nat :=
  if x = 0 then 0
  else
    let E := log2N (x * 2 ^ 64 / y)
    let num := if E ≤ 116 then x * 2 ^ (116 - E) else x
    let den := if E ≤ 116 then y else y * 2 ^ (E - 116)
    let q := num / den
    let r := num % den
    let m := if den < 2 * r ∨ (den = 2 * r ∧ q % 2 = 1) then q + 1 else q
    m * 2 ^ E

/-- The floating-point half of the threshold test on line 106:
`(fs.avail as f64 / fs.total as f64) < (amount as f64 / 100.0)`, with
both conversions and both divisions rounded to nearest-even binary64
and the comparison taken on the resulting values (both scaled by the
common factor `2 ^ 116`).  For a zero total the left side is infinite
or NaN and the comparison is false either way. -/
def ratioBelow (avail total amount : Nat) : Bool :=
  if total = 0 then false
  else decide (fdiv53Scaled (rnd53 avail) (rnd53 total) < fdiv53Scaled (rnd53 amount) 100)

/-- The threshold test of `make_room` (line 106): space must be
reclaimed when fewer than `amount` GiB are free (compared exactly on
byte counts) or when less than `amount` percent of the disk is free
(compared in 64-bit floating point, as the program does). -/
def needRoom (amount avail total : Nat) : Bool :=
  decide (avail < amount * 1073741824) || ratioBelow avail total amount

/-- The scan for the smallest uncompressed backup (lines 110-120) with
the running minimum as accumulator; among equal sizes the entry
encountered first is kept. -/
def smCand (acc : Option (Str × Nat)) : List (Str × Nat) → Option (Str × Nat)
  | [] => acc
  | e :: rest =>
    smCand (if isGz e.1 then acc
      else match acc with
        | none => some e
        | some a => if e.2 < a.2 then some e else acc) rest

/-- The smallest uncompressed backup of a directory listing, if any. -/
def smallestUncompressed (es : List (Str × Nat)) : Option (Str × Nat) :=
  smCand none es

/-- Effect of `gzip` on the directory listing: the file is replaced in
place by its compressed form, with `.gz` appended to the name. -/
def compressEntry : List (Str × Nat) → Str → Nat → List (Str × Nat)
  | [], _, _ => []
  | e :: rest, p, sz =>
    if e.1 = p then (p ++ ['.', 'g', 'z'], sz) :: rest else e :: compressEntry rest p sz

/-- Effect of `fs::remove_file` on the directory listing. -/
def eraseFirst : List (Str × Nat) → Str → List (Str × Nat)
  | [], _ => []
  | e :: rest, f => if e.1 = f then rest else e :: eraseFirst rest f

/-- Number of uncompressed entries in a directory listing. -/
def uCount (es : List (Str × Nat)) : Nat := es.countP (fun e => !isGz e.1)

/-- The directory entry names as seen by `delete_one`. -/
def dirNames (w : World) : List RawName := w.entries.map (fun e => RawName.utf8 e.1)

lemma all_ne_compressEntry (es : List (Str × Nat)) (p : Str) (sz : Nat)
    (h : es.all (fun e => !e.1.isEmpty) = true) :
    (compressEntry es p sz).all (fun e => !e.1.isEmpty) = true := by
  induction es with
  | nil => simpa [compressEntry] using h
  | cons e rest ih =>
    simp only [List.all_cons, Bool.and_eq_true] at h
    by_cases hc : e.1 = p
    · simp only [compressEntry, if_pos hc, List.all_cons, Bool.and_eq_true]
      refine ⟨?_, h.2⟩
      simp
    · simp only [compressEntry, if_neg hc, List.all_cons, Bool.and_eq_true]
      exact ⟨h.1, ih h.2⟩

lemma all_ne_eraseFirst (es : List (Str × Nat)) (f : Str)
    (h : es.all (fun e => !e.1.isEmpty) = true) :
    (eraseFirst es f).all (fun e => !e.1.isEmpty) = true := by
  induction es with
  | nil => simpa [eraseFirst] using h
  | cons e rest ih =>
    simp only [List.all_cons, Bool.and_eq_true] at h
    by_cases hc : e.1 = f
    · simpa [eraseFirst, hc] using h.2
    · simp only [eraseFirst, if_neg hc, List.all_cons, Bool.and_eq_true]
      exact ⟨h.1, ih h.2⟩

/-- World after a successful `gzip` invocation on `p`. -/
def compressApply (env : Env) (w : World) (p : Str) : World :=
  { avail := (env.fsAfterCompress w p).1
    total := (env.fsAfterCompress w p).2
    entries := compressEntry w.entries p (env.gzSize w p)
    names_ne := all_ne_compressEntry w.entries p (env.gzSize w p) w.names_ne }

/-- World after `fs::remove_file` on `f`. -/
def deleteApply (env : Env) (w : World) (f : Str) : World :=
  { avail := (env.fsAfterDelete w f).1
    total := (env.fsAfterDelete w f).2
    entries := eraseFirst w.entries f
    names_ne := all_ne_eraseFirst w.entries f w.names_ne }

lemma smCand_some (es : List (Str × Nat)) :
    ∀ acc r, smCand acc es = some r →
      (acc = some r ∨ (r ∈ es ∧ isGz r.1 = false)) ∧
      (∀ e ∈ es, isGz e.1 = false → r.2 ≤ e.2) ∧
      (∀ a, acc = some a → r.2 ≤ a.2) := by
  induction es with
  | nil =>
    intro acc r h
    simp only [smCand] at h
    refine ⟨Or.inl h, by simp, ?_⟩
    intro a ha
    rw [h] at ha
    cases ha
    exact le_refl _
  | cons e rest ih =>
    intro acc r h
    simp only [smCand] at h
    by_cases hg : isGz e.1
    · rw [if_pos hg] at h
      obtain ⟨h1, h2, h3⟩ := ih acc r h
      refine ⟨?_, ?_, h3⟩
      · rcases h1 with h1 | h1
        · exact Or.inl h1
        · exact Or.inr ⟨List.mem_cons_of_mem _ h1.1, h1.2⟩
      · intro e0 he0 hgz0
        rcases List.mem_cons.mp he0 with rfl | he0
        · rw [hg] at hgz0; cases hgz0
        · exact h2 e0 he0 hgz0
    · rw [if_neg hg] at h
      rw [Bool.not_eq_true] at hg
      cases acc with
      | none =>
        obtain ⟨h1, h2, h3⟩ := ih (some e) r h
        refine ⟨?_, ?_, by intro a ha; cases ha⟩
        · rcases h1 with h1 | h1
          · cases h1; exact Or.inr ⟨List.mem_cons_self _ _, hg⟩
          · exact Or.inr ⟨List.mem_cons_of_mem _ h1.1, h1.2⟩
        · intro e0 he0 hgz0
          rcases List.mem_cons.mp he0 with rfl | he0
          · exact h3 e0 rfl
          · exact h2 e0 he0 hgz0
      | some a =>
        replace h : smCand (if e.2 < a.2 then some e else some a) rest = some r := h
        by_cases hlt : e.2 < a.2
        · rw [if_pos hlt] at h
          obtain ⟨h1, h2, h3⟩ := ih (some e) r h
          refine ⟨?_, ?_, ?_⟩
          · rcases h1 with h1 | h1
            · cases h1; exact Or.inr ⟨List.mem_cons_self _ _, hg⟩
            · exact Or.inr ⟨List.mem_cons_of_mem _ h1.1, h1.2⟩
          · intro e0 he0 hgz0
            rcases List.mem_cons.mp he0 with rfl | he0
            · exact h3 e0 rfl
            · exact h2 e0 he0 hgz0
          · intro a0 ha0
            cases ha0
            exact le_of_lt (lt_of_le_of_lt (h3 e rfl) hlt)
        · rw [if_neg hlt] at h
          obtain ⟨h1, h2, h3⟩ := ih (some a) r h
          refine ⟨?_, ?_, h3⟩
          · rcases h1 with h1 | h1
            · exact Or.inl h1
            · exact Or.inr ⟨List.mem_cons_of_mem _ h1.1, h1.2⟩
          · intro e0 he0 hgz0
            rcases List.mem_cons.mp he0 with rfl | he0
            · exact le_trans (h3 a rfl) (le_of_not_lt hlt)
            · exact h2 e0 he0 hgz0

lemma smCand_none (es : List (Str × Nat)) :
    ∀ acc, smCand acc es = none ↔ (acc = none ∧ ∀ e ∈ es, isGz e.1 = true) := by
  induction es with
  | nil => intro acc; simp [smCand]
  | cons e rest ih =>
    intro acc
    simp only [smCand]
    by_cases hg : isGz e.1
    · rw [if_pos hg, ih acc]
      constructor
      · rintro ⟨h1, h2⟩
        refine ⟨h1, ?_⟩
        intro e0 he0
        rcases List.mem_cons.mp he0 with rfl | he0
        · exact hg
        · exact h2 e0 he0
      · rintro ⟨h1, h2⟩
        exact ⟨h1, fun e0 he0 => h2 e0 (List.mem_cons_of_mem _ he0)⟩
    · rw [if_neg hg]
      rw [Bool.not_eq_true] at hg
      constructor
      · intro h
        cases acc with
        | none =>
          obtain ⟨h1, _⟩ := (ih (some e)).mp h
          cases h1
        | some a =>
          replace h : smCand (if e.2 < a.2 then some e else some a) rest = none := h
          by_cases hlt : e.2 < a.2
          · rw [if_pos hlt] at h
            obtain ⟨h1, _⟩ := (ih (some e)).mp h
            cases h1
          · rw [if_neg hlt] at h
            obtain ⟨h1, _⟩ := (ih (some a)).mp h
            cases h1
      · rintro ⟨rfl, h2⟩
        have := h2 e (List.mem_cons_self _ _)
        rw [hg] at this
        cases this

lemma afterLastDot_append_gz (l : Str) :
    afterLastDot (l ++ ['.', 'g', 'z']) = some ['g', 'z'] := by
  induction l with
  | nil => rfl
  | cons c l ih =>
    show afterLastDot (c :: (l ++ ['.', 'g', 'z'])) = _
    by_cases hc : c = '.'
    · simp [afterLastDot, hc, ih]
    · simp [afterLastDot, hc, ih]

lemma isGz_append_gz (p : Str) (hp : p ≠ []) : isGz (p ++ ['.', 'g', 'z']) = true := by
  cases p with
  | nil => exact absurd rfl hp
  | cons c p =>
    show isGz (c :: (p ++ ['.', 'g', 'z'])) = true
    simp [isGz, rsExtension, afterLastDot_append_gz]

lemma mem_names_ne (es : List (Str × Nat)) (h : es.all (fun e => !e.1.isEmpty) = true)
    (p : Str) (s : Nat) (hm : (p, s) ∈ es) : p ≠ [] := by
  have h2 := List.all_eq_true.mp h ⟨p, s⟩ hm
  intro hp
  rw [hp] at h2
  simp at h2

lemma compressEntry_length (es : List (Str × Nat)) (p : Str) (sz : Nat) :
    (compressEntry es p sz).length = es.length := by
  induction es with
  | nil => rfl
  | cons e rest ih =>
    by_cases hc : e.1 = p
    · simp [compressEntry, hc]
    · simp [compressEntry, hc, ih]

lemma uCount_compressEntry_lt (es : List (Str × Nat)) (p : Str) (sz s0 : Nat)
    (hm : (p, s0) ∈ es) (hp : isGz p = false) (hgz : isGz (p ++ ['.', 'g', 'z']) = true) :
    uCount (compressEntry es p sz) < uCount es := by
  induction es with
  | nil => cases hm
  | cons e rest ih =>
    by_cases hc : e.1 = p
    · have he : isGz e.1 = false := by rw [hc]; exact hp
      simp only [compressEntry, if_pos hc, uCount, List.countP_cons, hgz, he]
      simp
    · have hm' : (p, s0) ∈ rest := by
        rcases List.mem_cons.mp hm with heq | hmem
        · exact absurd (congrArg Prod.fst heq).symm hc
        · exact hmem
      simp only [compressEntry, if_neg hc, uCount, List.countP_cons]
      have := ih hm'
      simp only [uCount] at this
      omega

lemma eraseFirst_length (es : List (Str × Nat)) (f : Str) (s0 : Nat)
    (hm : (f, s0) ∈ es) : (eraseFirst es f).length + 1 = es.length := by
  induction es with
  | nil => cases hm
  | cons e rest ih =>
    by_cases hc : e.1 = f
    · simp [eraseFirst, hc]
    · have hm' : (f, s0) ∈ rest := by
        rcases List.mem_cons.mp hm with heq | hmem
        · exact absurd (congrArg Prod.fst heq).symm hc
        · exact hmem
      simp only [eraseFirst, if_neg hc, List.length_cons]
      rw [← ih hm']

lemma uCount_eraseFirst_le (es : List (Str × Nat)) (f : Str) :
    uCount (eraseFirst es f) ≤ uCount es := by
  induction es with
  | nil => exact le_refl _
  | cons e rest ih =>
    by_cases hc : e.1 = f
    · simp only [eraseFirst, if_pos hc, uCount, List.countP_cons]
      simp only [uCount] at ih ⊢
      omega
    · simp only [eraseFirst, if_neg hc, uCount, List.countP_cons]
      simp only [uCount] at ih
      omega

lemma minFold_mem {α : Type} (f : α → Int × Int) (ys : List α) :
    ∀ acc, minFold f acc ys = acc ∨ minFold f acc ys ∈ ys := by
  induction ys with
  | nil => intro acc; exact Or.inl rfl
  | cons y ys ih =>
    intro acc
    show minFold f (if pairLt (f y) (f acc) then y else acc) ys = acc ∨
      minFold f (if pairLt (f y) (f acc) then y else acc) ys ∈ y :: ys
    by_cases hy : pairLt (f y) (f acc)
    · rw [if_pos hy]
      rcases ih y with h | h
      · exact Or.inr (by rw [h]; exact List.mem_cons_self _ _)
      · exact Or.inr (List.mem_cons_of_mem _ h)
    · rw [if_neg hy]
      rcases ih acc with h | h
      · exact Or.inl h
      · exact Or.inr (List.mem_cons_of_mem _ h)

lemma minByKey_mem {α : Type} (f : α → Int × Int) (l : List α) (x : α)
    (h : minByKey f l = some x) : x ∈ l := by
  cases l with
  | nil => cases h
  | cons a l =>
    replace h : some (minFold f a l) = some x := h
    cases h
    rcases minFold_mem f l a with h | h
    · rw [h]; exact List.mem_cons_self _ _
    · exact List.mem_cons_of_mem _ h

lemma windows3_mid_mem {α : Type} (l : List α) (w : α × α × α)
    (h : w ∈ windows3 l) : w.2.1 ∈ l := by
  induction l with
  | nil => cases h
  | cons a l ih =>
    cases l with
    | nil => cases h
    | cons b l2 =>
      cases l2 with
      | nil => cases h
      | cons c rest =>
        replace h : w ∈ (a, b, c) :: windows3 (b :: c :: rest) := h
        rcases List.mem_cons.mp h with rfl | h2
        · exact List.mem_cons_of_mem _ (List.mem_cons_self _ _)
        · exact List.mem_cons_of_mem _ (ih h2)

lemma selectVictim_mem (l : List Entry) (fn : Str) (h : selectVictim l = some fn) :
    ∃ t, (t, fn) ∈ l := by
  cases l with
  | nil => simp [selectVictim] at h
  | cons a l =>
    cases l with
    | nil => simp [selectVictim] at h
    | cons b l2 =>
      cases l2 with
      | nil =>
        replace h : some a.2 = some fn := h
        cases h
        exact ⟨a.1, List.mem_cons_self _ _⟩
      | cons c rest =>
        replace h : (minByKey winKey (windows3 (a :: b :: c :: rest))).map
          (fun w => w.2.1.2) = some fn := h
        rcases Option.map_eq_some'.mp h with ⟨w, hw, hfn⟩
        have hmem := windows3_mid_mem _ w (minByKey_mem _ _ _ hw)
        refine ⟨w.2.1.1, ?_⟩
        rw [← hfn]
        simpa using hmem

lemma insertSorted_mem (l : List Entry) (t : DT) (n : Str) :
    ∀ e ∈ insertSorted l t n, e.2 = n ∨ e ∈ l := by
  induction l with
  | nil =>
    intro e he
    replace he : e ∈ [(t, n)] := he
    rcases List.mem_singleton.mp he with rfl
    exact Or.inl rfl
  | cons hd rest ih =>
    intro e he
    replace he : e ∈ (if pairLt t.ordKey hd.1.ordKey then (t, n) :: hd :: rest
      else if t.ordKey = hd.1.ordKey then (hd.1, n) :: rest
      else hd :: insertSorted rest t n) := he
    by_cases h1 : pairLt t.ordKey hd.1.ordKey
    · rw [if_pos h1] at he
      rcases List.mem_cons.mp he with rfl | he2
      · exact Or.inl rfl
      · exact Or.inr he2
    · rw [if_neg h1] at he
      by_cases h2 : t.ordKey = hd.1.ordKey
      · rw [if_pos h2] at he
        rcases List.mem_cons.mp he with rfl | he2
        · exact Or.inl rfl
        · exact Or.inr (List.mem_cons_of_mem _ he2)
      · rw [if_neg h2] at he
        rcases List.mem_cons.mp he with rfl | he2
        · exact Or.inr (List.mem_cons_self _ _)
        · rcases ih e he2 with h | h
          · exact Or.inl h
          · exact Or.inr (List.mem_cons_of_mem _ h)

lemma buildIndexAux_mem (names : List RawName) :
    ∀ acc idx, buildIndexAux acc names = .ok idx →
      ∀ e ∈ idx, e ∈ acc ∨ RawName.utf8 e.2 ∈ names := by
  induction names with
  | nil =>
    intro acc idx h e he
    replace h : Except.ok (ε := Err) acc = Except.ok idx := h
    cases h
    exact Or.inl he
  | cons m ms ih =>
    intro acc idx h e he
    cases m with
    | invalid =>
      replace h : Except.error (α := List Entry) Err.notUtf8 = Except.ok idx := h
      cases h
    | utf8 n =>
      replace h : (match decodeName n with
        | none => Except.error (Err.parse n)
        | some (t, _) => buildIndexAux (insertSorted acc t n) ms) = Except.ok idx := h
      cases hd : decodeName n with
      | none => rw [hd] at h; cases h
      | some tb =>
        obtain ⟨t, b⟩ := tb
        rw [hd] at h
        replace h : buildIndexAux (insertSorted acc t n) ms = Except.ok idx := h
        rcases ih (insertSorted acc t n) idx h e he with h2 | h2
        · rcases insertSorted_mem acc t n e h2 with h3 | h3
          · rw [h3]
            exact Or.inr (List.mem_cons_self _ _)
          · exact Or.inl h3
        · exact Or.inr (List.mem_cons_of_mem _ h2)

lemma deleteOneV_some_mem (v : Bool) (names : List RawName) (f : Str) (lg : List Event)
    (h : deleteOneV v names = (Except.ok (some f), lg)) : RawName.utf8 f ∈ names := by
  unfold deleteOneV at h
  cases hB : buildIndexAux [] names with
  | error e => simp only [hB] at h; simp at h
  | ok idx =>
    simp only [hB] at h
    cases hS : selectVictim idx with
    | none => simp only [hS] at h; simp at h
    | some f2 =>
      simp only [hS] at h
      simp only [Prod.mk.injEq, Except.ok.injEq, Option.some.injEq] at h
      obtain ⟨rfl, -⟩ := h
      obtain ⟨t, ht⟩ := selectVictim_mem idx f2 hS
      rcases buildIndexAux_mem names [] idx hB (t, f2) ht with h2 | h2
      · cases h2
      · exact h2

lemma deleteOneV_mem_entries (v : Bool) (w : World) (f : Str) (lg : List Event)
    (h : deleteOneV v (dirNames w) = (Except.ok (some f), lg)) :
    ∃ s0, (f, s0) ∈ w.entries := by
  have hmem := deleteOneV_some_mem v _ f lg h
  simp only [dirNames, List.mem_map] at hmem
  obtain ⟨e, he, heq⟩ := hmem
  simp only [RawName.utf8.injEq] at heq
  exact ⟨e.2, by rw [← heq]; exact he⟩

lemma measure_compress (env : Env) (w : World) (p : Str) (s : Nat)
    (hSU : smallestUncompressed w.entries = some (p, s)) :
    2 * (compressApply env w p).entries.length + uCount (compressApply env w p).entries <
      2 * w.entries.length + uCount w.entries := by
  obtain ⟨h1, -, -⟩ := smCand_some w.entries none (p, s) hSU
  rcases h1 with h1 | h1
  · cases h1
  · obtain ⟨hm, hgz⟩ := h1
    have hp : p ≠ [] := mem_names_ne w.entries w.names_ne p s hm
    have hL := compressEntry_length w.entries p (env.gzSize w p)
    have hU := uCount_compressEntry_lt w.entries p (env.gzSize w p) s hm hgz
      (isGz_append_gz p hp)
    simp only [compressApply] at *
    omega

lemma measure_delete (env : Env) (w : World) (f : Str) (s0 : Nat)
    (hm : (f, s0) ∈ w.entries) :
    2 * (deleteApply env w f).entries.length + uCount (deleteApply env w f).entries <
      2 * w.entries.length + uCount w.entries := by
  have hL := eraseFirst_length w.entries f s0 hm
  have hU := uCount_eraseFirst_le w.entries f
  simp only [deleteApply]
  omega

/-- Model of the `make_room` loop (src/main.rs lines 102-135): while
the thresholds are unmet, gzip the smallest uncompressed backup when
it is strictly smaller than the available space, and otherwise delete
the backup chosen by `delete_one`, stopping when nothing evictable
remains.  The returned event list is the sequence of observable
effects.  Totality is by the measure `2 * entries + uncompressed
entries`, which every compression and every deletion strictly
decreases. -/
def makeRoomV (env : Env) (amount : Nat) (verbose : Bool) (w : World) :
    Except Err Bool × List Event :=
  if needRoom amount w.avail w.total then
    match hSU : smallestUncompressed w.entries with
    | some (p, s) =>
      if s < w.avail then
        match makeRoomV env amount verbose (compressApply env w p) with
        | (r, log) => (r, Event.compress p :: log)
      else
        match hD : deleteOneV verbose (dirNames w) with
        | (Except.error e, dlog) => (Except.error e, dlog)
        | (Except.ok none, dlog) => (Except.ok false, dlog)
        | (Except.ok (some f), dlog) =>
          match makeRoomV env amount verbose (deleteApply env w f) with
          | (r, log) => (r, dlog ++ Event.delete f :: log)
    | none =>
      match hD : deleteOneV verbose (dirNames w) with
      | (Except.error e, dlog) => (Except.error e, dlog)
      | (Except.ok none, dlog) => (Except.ok false, dlog)
      | (Except.ok (some f), dlog) =>
        match makeRoomV env amount verbose (deleteApply env w f) with
        | (r, log) => (r, dlog ++ Event.delete f :: log)
  else (Except.ok true, [])
termination_by 2 * w.entries.length + uCount w.entries
decreasing_by
  · exact measure_compress env w p s hSU
  · obtain ⟨s0, hm⟩ := deleteOneV_mem_entries verbose w f dlog hD
    exact measure_delete env w f s0 hm
  · obtain ⟨s0, hm⟩ := deleteOneV_mem_entries verbose w f dlog hD
    exact measure_delete env w f s0 hm

/-- Classification of one iteration of the `make_room` loop. -/
inductive Step : Type where
  | enough
  | compress (path : Str)
  | evict (file : Str)
  | evictNone
  | fail (e : Err)
deriving DecidableEq

/-- The eviction branch of a loop iteration, determined by the result
of `delete_one` (the verbose flag does not influence it). -/
def evictStep (w : World) : Step :=
  match (deleteOneV false (dirNames w)).1 with
  | .error e => .fail e
  | .ok none => .evictNone
  | .ok (some f) => .evict f

/-- One iteration of the `make_room` loop, classified by the action it
takes. -/
def iterStep (amount : Nat) (w : World) : Step :=
  if needRoom amount w.avail w.total then
    match smallestUncompressed w.entries with
    | some (p, s) => if s < w.avail then .compress p else evictStep w
    | none => evictStep w
  else .enough

/-- The events of a log other than verbose printing. -/
def nonPrint : List Event → List Event :=
  List.filter (fun e => match e with | .print _ => false | _ => true)

/-- Name of the external dump tool. -/
def pgDumpall : Str := ['p', 'g', '_', 'd', 'u', 'm', 'p', 'a', 'l', 'l']

/-- Model of `make_backup` (lines 89-95): `pg_dumpall` writes to a
newly created file named from the current timestamp in the
uncompressed format; `dumpOk` is whether the tool exits successfully. -/
def makeBackup (now : DT) (dumpOk : Bool) : Except Err Unit × List Event :=
  if dumpOk then (.ok (), [Event.dump (encodeName now false)])
  else (.error (.toolFailed pgDumpall), [Event.dump (encodeName now false)])

/-- Model of `main` (lines 144-151): reclaim; if that reports room,
dump a new backup and reclaim once more, propagating the second call's
error but ignoring its boolean.  `w1` is the world observed after the
new backup is written (an external effect). -/
def runMain (env : Env) (verbose : Bool) (w0 : World) (now : DT) (dumpOk : Bool) (w1 : World) :
    Except Err Unit × List Event :=
  match makeRoomV env 10 verbose w0 with
  | (.error e, log) => (.error e, log)
  | (.ok false, log) => (.ok (), log)
  | (.ok true, log) =>
    match makeBackup now dumpOk with
    | (.error e, blog) => (.error e, log ++ blog)
    | (.ok _, blog) =>
      match makeRoomV env 10 verbose w1 with
      | (.error e, log2) => (.error e, log ++ blog ++ log2)
      | (.ok _, log2) => (.ok (), log ++ blog ++ log2)

lemma isDigitCh_digitChar {d : Nat} (h : d < 10) : isDigitCh (Nat.digitChar d) = true := by
  interval_cases d <;> decide

lemma chVal_digitChar {d : Nat} (h : d < 10) : chVal (Nat.digitChar d) = d := by
  interval_cases d <;> decide

lemma padDigits_two (n : Nat) (h : n ≤ 99) :
    padDigits 2 n = [Nat.digitChar (n / 10), Nat.digitChar (n % 10)] := by
  have e1 : padDigits 2 n = [Nat.digitChar (n / 10 % 10), Nat.digitChar (n % 10)] := rfl
  have h1 : n / 10 % 10 = n / 10 := Nat.mod_eq_of_lt (by omega)
  rw [e1, h1]

lemma padDigits_four (n : Nat) (h : n ≤ 9999) :
    padDigits 4 n = [Nat.digitChar (n / 1000), Nat.digitChar (n / 100 % 10),
      Nat.digitChar (n / 10 % 10), Nat.digitChar (n % 10)] := by
  have e1 : padDigits 4 n = [Nat.digitChar (n / 10 / 10 / 10 % 10),
      Nat.digitChar (n / 10 / 10 % 10), Nat.digitChar (n / 10 % 10),
      Nat.digitChar (n % 10)] := rfl
  have h2 : n / 10 / 10 / 10 % 10 = n / 1000 := by omega
  have h3 : n / 10 / 10 % 10 = n / 100 % 10 := by omega
  rw [e1, h2, h3]

lemma daysInMonth_le (y : Int) (m : Nat) : daysInMonth y m ≤ 31 := by
  unfold daysInMonth
  split
  · split <;> omega
  · split <;> omega

lemma digitChar_not_ws {d : Nat} (h : d < 10) : isRustWs (Nat.digitChar d) = false := by
  interval_cases d <;> decide

lemma digitChar_ne_dash {d : Nat} (h : d < 10) : Nat.digitChar d ≠ '-' := by
  interval_cases d <;> decide

lemma digitChar_ne_plus {d : Nat} (h : d < 10) : Nat.digitChar d ≠ '+' := by
  interval_cases d <;> decide

lemma trimWs_digit {d : Nat} (h : d < 10) (cs : Str) :
    trimWs (Nat.digitChar d :: cs) = Nat.digitChar d :: cs := by
  simp only [trimWs]
  rw [digitChar_not_ws h]
  simp

lemma scanNum_take (maxW k v : Nat) (c : Char) (cs : Str) (hk : k < maxW)
    (hc : isDigitCh c = true) :
    scanNum maxW k v (c :: cs) = scanNum maxW (k + 1) (v * 10 + chVal c) cs := by
  simp only [scanNum]
  rw [if_pos ⟨hk, hc⟩]

lemma scanNum_stop (maxW k v : Nat) (cs : Str) (hk : ¬ k < maxW) :
    scanNum maxW k v cs = (k, v, cs) := by
  cases cs with
  | nil => rfl
  | cons c cs =>
    simp only [scanNum]
    rw [if_neg (fun hcon => hk hcon.1)]

lemma number1_two {a b : Nat} (ha : a < 10) (hb : b < 10) (rest : Str) :
    number1 2 (Nat.digitChar a :: Nat.digitChar b :: rest) = some (a * 10 + b, rest) := by
  unfold number1
  rw [scanNum_take 2 0 0 _ _ (by omega) (isDigitCh_digitChar ha),
    scanNum_take 2 1 _ _ _ (by omega) (isDigitCh_digitChar hb),
    scanNum_stop 2 2 _ _ (by omega),
    chVal_digitChar ha, chVal_digitChar hb]
  show some ((0 * 10 + a) * 10 + b, rest) = some (a * 10 + b, rest)
  norm_num

lemma number1_four {a b c d : Nat} (ha : a < 10) (hb : b < 10) (hc : c < 10) (hd : d < 10)
    (rest : Str) :
    number1 4
        (Nat.digitChar a :: Nat.digitChar b :: Nat.digitChar c :: Nat.digitChar d :: rest) =
      some (((a * 10 + b) * 10 + c) * 10 + d, rest) := by
  unfold number1
  rw [scanNum_take 4 0 0 _ _ (by omega) (isDigitCh_digitChar ha),
    scanNum_take 4 1 _ _ _ (by omega) (isDigitCh_digitChar hb),
    scanNum_take 4 2 _ _ _ (by omega) (isDigitCh_digitChar hc),
    scanNum_take 4 3 _ _ _ (by omega) (isDigitCh_digitChar hd),
    scanNum_stop 4 4 _ _ (by omega),
    chVal_digitChar ha, chVal_digitChar hb, chVal_digitChar hc, chVal_digitChar hd]
  show some ((((0 * 10 + a) * 10 + b) * 10 + c) * 10 + d, rest) =
    some (((a * 10 + b) * 10 + c) * 10 + d, rest)
  norm_num

lemma parseYear_chars {a b c d : Nat} (ha : a < 10) (hb : b < 10) (hc : c < 10) (hd : d < 10)
    (rest : Str) :
    parseYear
        (Nat.digitChar a :: Nat.digitChar b :: Nat.digitChar c :: Nat.digitChar d :: rest) =
      some (((((a * 10 + b) * 10 + c) * 10 + d : Nat) : Int), rest) := by
  simp only [parseYear]
  rw [if_neg (digitChar_ne_dash ha), if_neg (digitChar_ne_plus ha)]
  rw [number1_four ha hb hc hd]
  simp only [Option.map_some']

lemma expectCh_eq (c : Char) (cs : Str) : expectCh c (c :: cs) = some cs := by
  simp [expectCh]

lemma parseTs_pad (t : DT) (rest : Str) (hv : t.valid = true) :
    parseTs (padDigits 4 t.year.toNat ++ '-' :: padDigits 2 t.month ++ '-' ::
      padDigits 2 t.day ++ '_' :: padDigits 2 t.hour ++ '-' :: padDigits 2 t.minute ++ '-' ::
      padDigits 2 t.second ++ rest) = some (t, rest) := by
  obtain ⟨y, mo, d, hh, mi, s⟩ := t
  have hv2 := hv
  simp only [DT.valid, decide_eq_true_eq] at hv2
  obtain ⟨hy0, hy, hmo1, hmo2, hd1, hd2, hhh, hmi, hs⟩ := hv2
  have hdm := daysInMonth_le y mo
  have hytn : y.toNat ≤ 9999 := by omega
  rw [padDigits_four y.toNat hytn, padDigits_two mo (by omega), padDigits_two d (by omega),
    padDigits_two hh (by omega), padDigits_two mi (by omega), padDigits_two s (by omega)]
  simp only [List.cons_append, List.nil_append]
  simp only [parseTs]
  rw [trimWs_digit (show y.toNat / 1000 < 10 by omega)]
  rw [parseYear_chars (show y.toNat / 1000 < 10 by omega)
    (show y.toNat / 100 % 10 < 10 by omega) (show y.toNat / 10 % 10 < 10 by omega)
    (show y.toNat % 10 < 10 by omega)]
  simp only [Option.bind_eq_bind, Option.some_bind]
  rw [expectCh_eq]
  simp only [Option.bind_eq_bind, Option.some_bind]
  rw [trimWs_digit (show mo / 10 < 10 by omega)]
  rw [number1_two (show mo / 10 < 10 by omega) (show mo % 10 < 10 by omega)]
  simp only [Option.bind_eq_bind, Option.some_bind]
  rw [expectCh_eq]
  simp only [Option.bind_eq_bind, Option.some_bind]
  rw [trimWs_digit (show d / 10 < 10 by omega)]
  rw [number1_two (show d / 10 < 10 by omega) (show d % 10 < 10 by omega)]
  simp only [Option.bind_eq_bind, Option.some_bind]
  rw [expectCh_eq]
  simp only [Option.bind_eq_bind, Option.some_bind]
  rw [trimWs_digit (show hh / 10 < 10 by omega)]
  rw [number1_two (show hh / 10 < 10 by omega) (show hh % 10 < 10 by omega)]
  simp only [Option.bind_eq_bind, Option.some_bind]
  rw [expectCh_eq]
  simp only [Option.bind_eq_bind, Option.some_bind]
  rw [trimWs_digit (show mi / 10 < 10 by omega)]
  rw [number1_two (show mi / 10 < 10 by omega) (show mi % 10 < 10 by omega)]
  simp only [Option.bind_eq_bind, Option.some_bind]
  rw [expectCh_eq]
  simp only [Option.bind_eq_bind, Option.some_bind]
  rw [trimWs_digit (show s / 10 < 10 by omega)]
  rw [number1_two (show s / 10 < 10 by omega) (show s % 10 < 10 by omega)]
  simp only [Option.bind_eq_bind, Option.some_bind]
  have hY : ((((y.toNat / 1000 * 10 + y.toNat / 100 % 10) * 10 + y.toNat / 10 % 10) * 10 +
      y.toNat % 10 : Nat) : Int) = y := by
    have hnat : ((y.toNat / 1000 * 10 + y.toNat / 100 % 10) * 10 + y.toNat / 10 % 10) * 10 +
        y.toNat % 10 = y.toNat := by omega
    rw [hnat]
    omega
  have hMO : mo / 10 * 10 + mo % 10 = mo := by omega
  have hD : d / 10 * 10 + d % 10 = d := by omega
  have hHH : hh / 10 * 10 + hh % 10 = hh := by omega
  have hMI : mi / 10 * 10 + mi % 10 = mi := by omega
  have hS : s / 10 * 10 + s % 10 = s := by omega
  rw [hY, hMO, hD, hHH, hMI, hS]
  have hok : DT.decodeOk ⟨y, mo, d, hh, mi, s⟩ = true := by
    simp only [DT.decodeOk, decide_eq_true_eq]
    exact ⟨by omega, by omega, hmo1, hmo2, hd1, hd2, hhh, hmi, by omega⟩
  rw [hok]
  simp

/-- C7: for every representable timestamp (whole seconds, valid
calendar fields, four-digit year) and either compression flag,
decoding the encoded filename returns exactly the same timestamp and
flag. -/
theorem c7_codec_round_trip (t : DT) (c : Bool) (h : t.valid = true) :
    decodeName (encodeName t c) = some (t, c) := by
  simp only [encodeName, decodeName]
  rw [parseTs_pad t _ h]
  cases c
  · simp
  · simp

/-- C7 witness: the round trip at a concrete leap-day timestamp with
the compressed flag. -/
theorem c7_codec_round_trip_witness :
    (DT.mk 2024 2 29 23 59 58).valid = true ∧
      decodeName (encodeName (DT.mk 2024 2 29 23 59 58) true) =
        some (DT.mk 2024 2 29 23 59 58, true) :=
  ⟨by decide, c7_codec_round_trip (DT.mk 2024 2 29 23 59 58) true (by decide)⟩

lemma makeRoomV_eq_enough (env : Env) (amount : Nat) (v : Bool) (w : World)
    (hn : needRoom amount w.avail w.total = false) :
    makeRoomV env amount v w = (Except.ok true, []) := by
  rw [makeRoomV, hn]
  simp

lemma makeRoomV_eq_compress (env : Env) (amount : Nat) (v : Bool) (w : World) (p : Str) (s : Nat)
    (hn : needRoom amount w.avail w.total = true)
    (hSU : smallestUncompressed w.entries = some (p, s)) (hlt : s < w.avail) :
    makeRoomV env amount v w =
      ((makeRoomV env amount v (compressApply env w p)).1,
        Event.compress p :: (makeRoomV env amount v (compressApply env w p)).2) := by
  rw [makeRoomV, hn]
  rw [if_pos rfl]
  split
  · rename_i p2 s2 heq
    rw [hSU] at heq
    injection heq with heq2
    injection heq2 with hp hs
    subst hp
    subst hs
    rw [if_pos hlt]
  · rename_i heq
    rw [hSU] at heq
    cases heq

lemma makeRoomV_eq_noCompress (env : Env) (amount : Nat) (v : Bool) (w : World)
    (hn : needRoom amount w.avail w.total = true)
    (hnc : ∀ p s, smallestUncompressed w.entries = some (p, s) → ¬ s < w.avail) :
    makeRoomV env amount v w =
      (match deleteOneV v (dirNames w) with
        | (Except.error e, dlog) => (Except.error e, dlog)
        | (Except.ok none, dlog) => (Except.ok false, dlog)
        | (Except.ok (some f), dlog) =>
          ((makeRoomV env amount v (deleteApply env w f)).1,
            dlog ++ Event.delete f :: (makeRoomV env amount v (deleteApply env w f)).2)) := by
  rw [makeRoomV, hn]
  rw [if_pos rfl]
  split
  · rename_i p2 s2 heq
    rw [if_neg (hnc p2 s2 heq)]
    rcases hD : deleteOneV v (dirNames w) with ⟨res, dlog⟩
    cases res with
    | error e => simp only []
    | ok o =>
      cases o with
      | none => simp only []
      | some f =>
        rcases hM : makeRoomV env amount v (deleteApply env w f) with ⟨r, lg⟩
        simp only [hM]
  · rcases hD : deleteOneV v (dirNames w) with ⟨res, dlog⟩
    cases res with
    | error e => simp only []
    | ok o =>
      cases o with
      | none => simp only []
      | some f =>
        rcases hM : makeRoomV env amount v (deleteApply env w f) with ⟨r, lg⟩
        simp only [hM]

lemma deleteOneV_false (v : Bool) (names : List RawName) :
    deleteOneV false names = ((deleteOneV v names).1, []) := by
  unfold deleteOneV
  cases buildIndexAux [] names with
  | error e => rfl
  | ok idx =>
    simp only []
    cases selectVictim idx with
    | none => rfl
    | some f => rfl

lemma nonPrint_deleteOneV (v : Bool) (names : List RawName) :
    nonPrint (deleteOneV v names).2 = [] := by
  unfold deleteOneV
  cases buildIndexAux [] names with
  | error e => rfl
  | ok idx =>
    simp only []
    cases selectVictim idx with
    | none => rfl
    | some f =>
      cases v with
      | false => rfl
      | true => rfl

lemma deleteOneV_log_nonPrint (v : Bool) (names : List RawName)
    (res : Except Err (Option Str)) (lg : List Event)
    (h : deleteOneV v names = (res, lg)) : nonPrint lg = [] := by
  have h2 := nonPrint_deleteOneV v names
  rw [h] at h2
  exact h2

lemma deleteOneV_no_dump (v : Bool) (names : List RawName) (n : Str) :
    Event.dump n ∉ (deleteOneV v names).2 := by
  unfold deleteOneV
  cases buildIndexAux [] names with
  | error e => simp
  | ok idx =>
    simp only []
    cases selectVictim idx with
    | none => simp
    | some f =>
      cases v with
      | false => simp
      | true => simp

lemma nonPrint_nil : nonPrint [] = [] := rfl

lemma nonPrint_print (s : Str) (l : List Event) :
    nonPrint (Event.print s :: l) = nonPrint l := rfl

lemma nonPrint_compress (p : Str) (l : List Event) :
    nonPrint (Event.compress p :: l) = Event.compress p :: nonPrint l := rfl

lemma nonPrint_delete (f : Str) (l : List Event) :
    nonPrint (Event.delete f :: l) = Event.delete f :: nonPrint l := rfl

lemma nonPrint_append (l1 l2 : List Event) :
    nonPrint (l1 ++ l2) = nonPrint l1 ++ nonPrint l2 := by
  simp [nonPrint]

lemma makeRoomV_verbose_base (env : Env) (amount : Nat) (v : Bool) :
    ∀ w : World,
      (makeRoomV env amount v w).1 = (makeRoomV env amount false w).1 ∧
      nonPrint (makeRoomV env amount v w).2 = nonPrint (makeRoomV env amount false w).2 := by
  intro w
  induction w using makeRoomV.induct env amount v with
  | case1 x hn p s hSU hlt r log hM ih =>
    rw [makeRoomV_eq_compress env amount v x p s hn hSU hlt,
      makeRoomV_eq_compress env amount false x p s hn hSU hlt]
    exact ⟨ih.1, by rw [nonPrint_compress, nonPrint_compress, ih.2]⟩
  | case2 x hn p s hSU hnlt e dlog hD =>
    have hnc : ∀ p2 s2, smallestUncompressed x.entries = some (p2, s2) → ¬ s2 < x.avail := by
      intro p2 s2 h2
      rw [hSU] at h2
      injection h2 with h3
      injection h3 with hp hs
      subst hp
      subst hs
      exact hnlt
    have hDf : deleteOneV false (dirNames x) = (Except.error e, []) := by
      rw [deleteOneV_false v (dirNames x), hD]
    rw [makeRoomV_eq_noCompress env amount v x hn hnc,
      makeRoomV_eq_noCompress env amount false x hn hnc]
    simp only [hD, hDf]
    exact ⟨trivial, by rw [deleteOneV_log_nonPrint v (dirNames x) _ dlog hD]; rfl⟩
  | case3 x hn p s hSU hnlt dlog hD =>
    have hnc : ∀ p2 s2, smallestUncompressed x.entries = some (p2, s2) → ¬ s2 < x.avail := by
      intro p2 s2 h2
      rw [hSU] at h2
      injection h2 with h3
      injection h3 with hp hs
      subst hp
      subst hs
      exact hnlt
    have hDf : deleteOneV false (dirNames x) = (Except.ok none, []) := by
      rw [deleteOneV_false v (dirNames x), hD]
    rw [makeRoomV_eq_noCompress env amount v x hn hnc,
      makeRoomV_eq_noCompress env amount false x hn hnc]
    simp only [hD, hDf]
    exact ⟨trivial, by rw [deleteOneV_log_nonPrint v (dirNames x) _ dlog hD]; rfl⟩
  | case4 x hn p s hSU hnlt f dlog hD r log hM ih =>
    have hnc : ∀ p2 s2, smallestUncompressed x.entries = some (p2, s2) → ¬ s2 < x.avail := by
      intro p2 s2 h2
      rw [hSU] at h2
      injection h2 with h3
      injection h3 with hp hs
      subst hp
      subst hs
      exact hnlt
    have hDf : deleteOneV false (dirNames x) = (Except.ok (some f), []) := by
      rw [deleteOneV_false v (dirNames x), hD]
    rw [makeRoomV_eq_noCompress env amount v x hn hnc,
      makeRoomV_eq_noCompress env amount false x hn hnc]
    simp only [hD, hDf]
    refine ⟨ih.1, ?_⟩
    rw [nonPrint_append, nonPrint_append, deleteOneV_log_nonPrint v (dirNames x) _ dlog hD,
      nonPrint_nil, nonPrint_delete, nonPrint_delete, ih.2]
  | case5 x hn hSU e dlog hD =>
    have hnc : ∀ p2 s2, smallestUncompressed x.entries = some (p2, s2) → ¬ s2 < x.avail := by
      intro p2 s2 h2
      rw [hSU] at h2
      cases h2
    have hDf : deleteOneV false (dirNames x) = (Except.error e, []) := by
      rw [deleteOneV_false v (dirNames x), hD]
    rw [makeRoomV_eq_noCompress env amount v x hn hnc,
      makeRoomV_eq_noCompress env amount false x hn hnc]
    simp only [hD, hDf]
    exact ⟨trivial, by rw [deleteOneV_log_nonPrint v (dirNames x) _ dlog hD]; rfl⟩
  | case6 x hn hSU dlog hD =>
    have hnc : ∀ p2 s2, smallestUncompressed x.entries = some (p2, s2) → ¬ s2 < x.avail := by
      intro p2 s2 h2
      rw [hSU] at h2
      cases h2
    have hDf : deleteOneV false (dirNames x) = (Except.ok none, []) := by
      rw [deleteOneV_false v (dirNames x), hD]
    rw [makeRoomV_eq_noCompress env amount v x hn hnc,
      makeRoomV_eq_noCompress env amount false x hn hnc]
    simp only [hD, hDf]
    exact ⟨trivial, by rw [deleteOneV_log_nonPrint v (dirNames x) _ dlog hD]; rfl⟩
  | case7 x hn hSU f dlog hD r log hM ih =>
    have hnc : ∀ p2 s2, smallestUncompressed x.entries = some (p2, s2) → ¬ s2 < x.avail := by
      intro p2 s2 h2
      rw [hSU] at h2
      cases h2
    have hDf : deleteOneV false (dirNames x) = (Except.ok (some f), []) := by
      rw [deleteOneV_false v (dirNames x), hD]
    rw [makeRoomV_eq_noCompress env amount v x hn hnc,
      makeRoomV_eq_noCompress env amount false x hn hnc]
    simp only [hD, hDf]
    refine ⟨ih.1, ?_⟩
    rw [nonPrint_append, nonPrint_append, deleteOneV_log_nonPrint v (dirNames x) _ dlog hD,
      nonPrint_nil, nonPrint_delete, nonPrint_delete, ih.2]
  | case8 x hn =>
    rw [Bool.not_eq_true] at hn
    rw [makeRoomV_eq_enough env amount v x hn, makeRoomV_eq_enough env amount false x hn]
    exact ⟨rfl, rfl⟩

lemma makeRoomV_no_dump (env : Env) (amount : Nat) (v : Bool) :
    ∀ (w : World), ∀ n : Str, Event.dump n ∉ (makeRoomV env amount v w).2 := by
  intro w
  induction w using makeRoomV.induct env amount v with
  | case1 x hn p s hSU hlt r log hM ih =>
    intro n hmem
    rw [makeRoomV_eq_compress env amount v x p s hn hSU hlt] at hmem
    rcases List.mem_cons.mp hmem with h | h
    · cases h
    · exact ih n h
  | case2 x hn p s hSU hnlt e dlog hD =>
    intro n hmem
    have hnc : ∀ p2 s2, smallestUncompressed x.entries = some (p2, s2) → ¬ s2 < x.avail := by
      intro p2 s2 h2
      rw [hSU] at h2
      injection h2 with h3
      injection h3 with hp hs
      subst hp
      subst hs
      exact hnlt
    rw [makeRoomV_eq_noCompress env amount v x hn hnc] at hmem
    simp only [hD] at hmem
    have := deleteOneV_no_dump v (dirNames x) n
    rw [hD] at this
    exact this hmem
  | case3 x hn p s hSU hnlt dlog hD =>
    intro n hmem
    have hnc : ∀ p2 s2, smallestUncompressed x.entries = some (p2, s2) → ¬ s2 < x.avail := by
      intro p2 s2 h2
      rw [hSU] at h2
      injection h2 with h3
      injection h3 with hp hs
      subst hp
      subst hs
      exact hnlt
    rw [makeRoomV_eq_noCompress env amount v x hn hnc] at hmem
    simp only [hD] at hmem
    have := deleteOneV_no_dump v (dirNames x) n
    rw [hD] at this
    exact this hmem
  | case4 x hn p s hSU hnlt f dlog hD r log hM ih =>
    intro n hmem
    have hnc : ∀ p2 s2, smallestUncompressed x.entries = some (p2, s2) → ¬ s2 < x.avail := by
      intro p2 s2 h2
      rw [hSU] at h2
      injection h2 with h3
      injection h3 with hp hs
      subst hp
      subst hs
      exact hnlt
    rw [makeRoomV_eq_noCompress env amount v x hn hnc] at hmem
    simp only [hD] at hmem
    rcases List.mem_append.mp hmem with h | h
    · have := deleteOneV_no_dump v (dirNames x) n
      rw [hD] at this
      exact this h
    · rcases List.mem_cons.mp h with h2 | h2
      · cases h2
      · exact ih n h2
  | case5 x hn hSU e dlog hD =>
    intro n hmem
    have hnc : ∀ p2 s2, smallestUncompressed x.entries = some (p2, s2) → ¬ s2 < x.avail := by
      intro p2 s2 h2
      rw [hSU] at h2
      cases h2
    rw [makeRoomV_eq_noCompress env amount v x hn hnc] at hmem
    simp only [hD] at hmem
    have := deleteOneV_no_dump v (dirNames x) n
    rw [hD] at this
    exact this hmem
  | case6 x hn hSU dlog hD =>
    intro n hmem
    have hnc : ∀ p2 s2, smallestUncompressed x.entries = some (p2, s2) → ¬ s2 < x.avail := by
      intro p2 s2 h2
      rw [hSU] at h2
      cases h2
    rw [makeRoomV_eq_noCompress env amount v x hn hnc] at hmem
    simp only [hD] at hmem
    have := deleteOneV_no_dump v (dirNames x) n
    rw [hD] at this
    exact this hmem
  | case7 x hn hSU f dlog hD r log hM ih =>
    intro n hmem
    have hnc : ∀ p2 s2, smallestUncompressed x.entries = some (p2, s2) → ¬ s2 < x.avail := by
      intro p2 s2 h2
      rw [hSU] at h2
      cases h2
    rw [makeRoomV_eq_noCompress env amount v x hn hnc] at hmem
    simp only [hD] at hmem
    rcases List.mem_append.mp hmem with h | h
    · have := deleteOneV_no_dump v (dirNames x) n
      rw [hD] at this
      exact this h
    · rcases List.mem_cons.mp h with h2 | h2
      · cases h2
      · exact ih n h2
  | case8 x hn =>
    intro n hmem
    rw [Bool.not_eq_true] at hn
    rw [makeRoomV_eq_enough env amount v x hn] at hmem
    cases hmem

/-- C9: for a fixed world, the victim chosen by `delete_one` and its
result, the result of `make_room`, and the non-printing effects are
all identical for any two settings of the verbose flag; verbosity only
changes what is printed. -/
theorem c9_verbose_noninterference (env : Env) (amount : Nat) (w : World) (v1 v2 : Bool) :
    (deleteOneV v1 (dirNames w)).1 = (deleteOneV v2 (dirNames w)).1 ∧
    (makeRoomV env amount v1 w).1 = (makeRoomV env amount v2 w).1 ∧
    nonPrint (makeRoomV env amount v1 w).2 = nonPrint (makeRoomV env amount v2 w).2 := by
  have h1 := deleteOneV_false v1 (dirNames w)
  have h2 := deleteOneV_false v2 (dirNames w)
  have hd := congrArg Prod.fst (h1.symm.trans h2)
  simp only [] at hd
  have m1 := makeRoomV_verbose_base env amount v1 w
  have m2 := makeRoomV_verbose_base env amount v2 w
  exact ⟨hd, m1.1.trans m2.1.symm, m1.2.trans m2.2.symm⟩

/-- Trivial effect oracles, used only to instantiate theorems at
concrete worlds. -/
def trivEnv : Env :=
  { gzSize := fun _ _ => 0
    fsAfterCompress := fun w _ => (w.avail, w.total)
    fsAfterDelete := fun w _ => (w.avail, w.total) }

/-- Concrete world with ample free space. -/
def wFull : World := ⟨10737418240, 1, [], rfl⟩

/-- Concrete world on an exabyte-scale filesystem where 64-bit
floating point rounds the free-space ratio up to exactly ten percent
while exact arithmetic puts it strictly below. -/
def wBig : World := ⟨999999999999999999, 10000000000000000000, [], rfl⟩

set_option maxRecDepth 100000 in
/-- C3 counterexample: with a threshold of 10, exact integer
arithmetic says strictly less than 10 percent of `wBig` is free
(`avail * 100 < 10 * total`), yet the iteration reports enough room
and the reclaim call returns true doing nothing, because both sides of
the program's double-precision ratio comparison round to the same
value. -/
theorem c3_exact_percent_refuted :
    wBig.avail * 100 < 10 * wBig.total ∧
    iterStep 10 wBig = Step.enough ∧
    makeRoomV trivEnv 10 true wBig = (Except.ok true, []) :=
  ⟨by decide, by decide, makeRoomV_eq_enough trivEnv 10 true wBig (by decide)⟩

/-- C3 (as amended): the reclaim success test is a conjunction of the
absolute floor, compared exactly on byte counts, and the relative
floor, compared in 64-bit floating point as the program computes it;
when both hold, `make_room` returns true at once performing no
deletion or compression, and when either fails the iteration proceeds
to reclamation. -/
theorem c3_thresholds_conjunction (env : Env) (amount : Nat) (v : Bool) (w : World)
    (h1 : amount * 1073741824 ≤ w.avail)
    (h2 : ratioBelow w.avail w.total amount = false) :
    makeRoomV env amount v w = (Except.ok true, []) ∧
    (∀ w2 : World,
      w2.avail < amount * 1073741824 ∨ ratioBelow w2.avail w2.total amount = true →
      iterStep amount w2 ≠ Step.enough) := by
  constructor
  · apply makeRoomV_eq_enough
    simp only [needRoom, Bool.or_eq_false_iff, decide_eq_false_iff_not]
    exact ⟨by omega, h2⟩
  · intro w2 hbad
    have hn2 : needRoom amount w2.avail w2.total = true := by
      simp only [needRoom, Bool.or_eq_true]
      rcases hbad with h | h
      · exact Or.inl (decide_eq_true h)
      · exact Or.inr h
    unfold iterStep
    rw [hn2, if_pos rfl]
    split
    · split
      · simp
      · unfold evictStep
        split <;> simp
    · unfold evictStep
      split <;> simp

set_option maxRecDepth 100000 in
/-- C3 witness: the satisfied-thresholds case at a concrete world. -/
theorem c3_thresholds_conjunction_witness :
    10 * 1073741824 ≤ wFull.avail ∧ ratioBelow wFull.avail wFull.total 10 = false ∧
    (makeRoomV trivEnv 10 true wFull = (Except.ok true, []) ∧
      (∀ w2 : World,
        w2.avail < 10 * 1073741824 ∨ ratioBelow w2.avail w2.total 10 = true →
        iterStep 10 w2 ≠ Step.enough)) :=
  ⟨by decide, by decide, c3_thresholds_conjunction trivEnv 10 true wFull (by decide) (by decide)⟩

/-- C5: the Eviction Selector returns none for an index with zero or
one entries, `delete_one` then deletes nothing, and a reclaim call
reaching this state (thresholds unmet, no compressible candidate)
returns false having performed no deletion. -/
theorem c5_single_backup :
    (∀ l : List Entry, l.length ≤ 1 → selectVictim l = none) ∧
    (∀ (v : Bool) (names : List RawName) (idx : List Entry),
      buildIndexAux [] names = Except.ok idx → idx.length ≤ 1 →
      deleteOneV v names = (Except.ok none, [])) ∧
    (∀ (env : Env) (amount : Nat) (v : Bool) (w : World) (idx : List Entry),
      needRoom amount w.avail w.total = true →
      (∀ p s, smallestUncompressed w.entries = some (p, s) → ¬ s < w.avail) →
      buildIndexAux [] (dirNames w) = Except.ok idx → idx.length ≤ 1 →
      makeRoomV env amount v w = (Except.ok false, [])) := by
  have hsel : ∀ l : List Entry, l.length ≤ 1 → selectVictim l = none := by
    intro l hl
    cases l with
    | nil => rfl
    | cons a l1 =>
      cases l1 with
      | nil => rfl
      | cons b l2 => simp only [List.length_cons] at hl; omega
  have hdel : ∀ (v : Bool) (names : List RawName) (idx : List Entry),
      buildIndexAux [] names = Except.ok idx → idx.length ≤ 1 →
      deleteOneV v names = (Except.ok none, []) := by
    intro v names idx hB hlen
    unfold deleteOneV
    rw [hB]
    simp only []
    rw [hsel idx hlen]
  refine ⟨hsel, hdel, ?_⟩
  intro env amount v w idx hn hnc hB hlen
  rw [makeRoomV_eq_noCompress env amount v w hn hnc]
  rw [hdel v (dirNames w) idx hB hlen]

/-- Concrete world with an empty backup directory and no free space. -/
def wEmpty : World := ⟨0, 100, [], rfl⟩

/-- C5 witness: a reclaim call on a concrete world with no entries and
unmet thresholds returns false at once. -/
theorem c5_single_backup_witness :
    needRoom 10 wEmpty.avail wEmpty.total = true ∧
    buildIndexAux [] (dirNames wEmpty) = Except.ok [] ∧
    selectVictim [] = none ∧
    makeRoomV trivEnv 10 true wEmpty = (Except.ok false, []) :=
  ⟨by decide, rfl, c5_single_backup.1 [] (by decide),
    c5_single_backup.2.2 trivEnv 10 true wEmpty [] (by decide)
      (fun p s h => Option.noConfusion h) rfl (by decide)⟩

/-- C2: in a loop iteration with the thresholds unmet, if a smallest
uncompressed backup exists and is strictly smaller than the available
space, the iteration compresses exactly that backup and deletes
nothing; otherwise (none exists, or it is at least as large as the
available space) the iteration falls back to eviction through the
selector. -/
theorem c2_compress_else_evict (amount : Nat) (w : World)
    (h : needRoom amount w.avail w.total = true) :
    (∀ p s, smallestUncompressed w.entries = some (p, s) → s < w.avail →
      iterStep amount w = Step.compress p ∧ (p, s) ∈ w.entries ∧ isGz p = false ∧
      (∀ e ∈ w.entries, isGz e.1 = false → s ≤ e.2) ∧
      (∀ (env : Env) (v : Bool),
        makeRoomV env amount v w =
          ((makeRoomV env amount v (compressApply env w p)).1,
            Event.compress p :: (makeRoomV env amount v (compressApply env w p)).2))) ∧
    (∀ p s, smallestUncompressed w.entries = some (p, s) → ¬ s < w.avail →
      iterStep amount w = evictStep w) ∧
    (smallestUncompressed w.entries = none →
      iterStep amount w = evictStep w ∧ ∀ e ∈ w.entries, isGz e.1 = true) := by
  refine ⟨?_, ?_, ?_⟩
  · intro p s hSU hlt
    obtain ⟨h1, h2, -⟩ := smCand_some w.entries none (p, s) hSU
    rcases h1 with h1 | h1
    · cases h1
    refine ⟨?_, h1.1, h1.2, fun e he hgz => h2 e he hgz,
      fun env v => makeRoomV_eq_compress env amount v w p s h hSU hlt⟩
    unfold iterStep
    rw [h, if_pos rfl]
    simp only [hSU]
    rw [if_pos hlt]
  · intro p s hSU hnlt
    unfold iterStep
    rw [h, if_pos rfl]
    simp only [hSU]
    rw [if_neg hnlt]
  · intro hSU
    refine ⟨?_, ((smCand_none w.entries none).mp hSU).2⟩
    unfold iterStep
    rw [h, if_pos rfl]
    simp only [hSU]

/-- Concrete world with one small uncompressed backup and unmet
thresholds. -/
def wSmall : World := ⟨100, 1000000000000, [(['a', '.', 's', 'q', 'l'], 5)], by decide⟩

/-- C2 witness: on a concrete world the iteration compresses the
smallest uncompressed backup. -/
theorem c2_compress_else_evict_witness :
    needRoom 10 wSmall.avail wSmall.total = true ∧
    smallestUncompressed wSmall.entries = some (['a', '.', 's', 'q', 'l'], 5) ∧
    5 < wSmall.avail ∧
    (iterStep 10 wSmall = Step.compress ['a', '.', 's', 'q', 'l'] ∧
      (['a', '.', 's', 'q', 'l'], 5) ∈ wSmall.entries ∧
      isGz ['a', '.', 's', 'q', 'l'] = false ∧
      (∀ e ∈ wSmall.entries, isGz e.1 = false → 5 ≤ e.2) ∧
      (∀ (env : Env) (v : Bool),
        makeRoomV env 10 v wSmall =
          ((makeRoomV env 10 v (compressApply env wSmall ['a', '.', 's', 'q', 'l'])).1,
            Event.compress ['a', '.', 's', 'q', 'l'] ::
              (makeRoomV env 10 v (compressApply env wSmall ['a', '.', 's', 'q', 'l'])).2))) :=
  ⟨by decide, by decide, by decide,
    (c2_compress_else_evict 10 wSmall (by decide)).1 ['a', '.', 's', 'q', 'l'] 5
      (by decide) (by decide)⟩

lemma evictStep_cases (env : Env) (w : World) :
    evictStep w = Step.evictNone ∨ (∃ e, evictStep w = Step.fail e) ∨
    (∃ f, evictStep w = Step.evict f ∧
      (deleteApply env w f).entries.length < w.entries.length ∧
      uCount (deleteApply env w f).entries ≤ uCount w.entries) := by
  unfold evictStep
  rcases hD : deleteOneV false (dirNames w) with ⟨res, lg⟩
  simp only [hD]
  cases res with
  | error e => exact Or.inr (Or.inl ⟨e, rfl⟩)
  | ok o =>
    cases o with
    | none => exact Or.inl rfl
    | some f =>
      refine Or.inr (Or.inr ⟨f, rfl, ?_, uCount_eraseFirst_le w.entries f⟩)
      obtain ⟨s0, hm⟩ := deleteOneV_mem_entries false w f lg hD
      have hL := eraseFirst_length w.entries f s0 hm
      simp only [deleteApply]
      omega

/-- C10: every iteration of the `make_room` loop either returns (room
is sufficient, nothing evictable remains, or an error surfaces),
compresses, or deletes; a compressing iteration strictly decreases the
number of uncompressed entries while preserving the total count, and a
deleting iteration strictly decreases the total count without
increasing the uncompressed count.  The pair of counts therefore
strictly decreases on every non-returning iteration, and `makeRoomV`
is a total function by exactly this measure. -/
theorem c10_loop_terminates (env : Env) (amount : Nat) (w : World) :
    iterStep amount w = Step.enough ∨ iterStep amount w = Step.evictNone ∨
    (∃ e, iterStep amount w = Step.fail e) ∨
    (∃ p, iterStep amount w = Step.compress p ∧
      uCount (compressApply env w p).entries < uCount w.entries ∧
      (compressApply env w p).entries.length = w.entries.length) ∨
    (∃ f, iterStep amount w = Step.evict f ∧
      (deleteApply env w f).entries.length < w.entries.length ∧
      uCount (deleteApply env w f).entries ≤ uCount w.entries) := by
  by_cases hn : needRoom amount w.avail w.total = true
  case neg =>
    left
    unfold iterStep
    rw [if_neg hn]
  case pos =>
    cases hSU : smallestUncompressed w.entries with
    | some ps =>
      obtain ⟨p, s⟩ := ps
      by_cases hlt : s < w.avail
      · refine Or.inr (Or.inr (Or.inr (Or.inl ⟨p, ?_, ?_,
          compressEntry_length w.entries p (env.gzSize w p)⟩)))
        · unfold iterStep
          rw [hn, if_pos rfl]
          simp only [hSU]
          rw [if_pos hlt]
        · obtain ⟨h1, -, -⟩ := smCand_some w.entries none (p, s) hSU
          rcases h1 with h1 | h1
          · cases h1
          · exact uCount_compressEntry_lt w.entries p (env.gzSize w p) s h1.1 h1.2
              (isGz_append_gz p (mem_names_ne w.entries w.names_ne p s h1.1))
      · have hE : iterStep amount w = evictStep w := by
          unfold iterStep
          rw [hn, if_pos rfl]
          simp only [hSU]
          rw [if_neg hlt]
        rcases evictStep_cases env w with h | ⟨e, he⟩ | ⟨f, hf, hd1, hd2⟩
        · exact Or.inr (Or.inl (by rw [hE]; exact h))
        · exact Or.inr (Or.inr (Or.inl ⟨e, by rw [hE]; exact he⟩))
        · exact Or.inr (Or.inr (Or.inr (Or.inr ⟨f, by rw [hE]; exact hf, hd1, hd2⟩)))
    | none =>
      have hE : iterStep amount w = evictStep w := by
        unfold iterStep
        rw [hn, if_pos rfl]
        simp only [hSU]
      rcases evictStep_cases env w with h | ⟨e, he⟩ | ⟨f, hf, hd1, hd2⟩
      · exact Or.inr (Or.inl (by rw [hE]; exact h))
      · exact Or.inr (Or.inr (Or.inl ⟨e, by rw [hE]; exact he⟩))
      · exact Or.inr (Or.inr (Or.inr (Or.inr ⟨f, by rw [hE]; exact hf, hd1, hd2⟩)))

lemma buildIndexAux_fails (names : List RawName) :
    ∀ acc, (RawName.invalid ∈ names ∨ ∃ n, RawName.utf8 n ∈ names ∧ decodeName n = none) →
      ∃ e, buildIndexAux acc names = Except.error e := by
  induction names with
  | nil =>
    intro acc h
    simp at h
  | cons m ms ih =>
    intro acc h
    cases m with
    | invalid => exact ⟨Err.notUtf8, rfl⟩
    | utf8 n0 =>
      have e1 : buildIndexAux acc (RawName.utf8 n0 :: ms) = (match decodeName n0 with
        | none => Except.error (Err.parse n0)
        | some (t, _) => buildIndexAux (insertSorted acc t n0) ms) := rfl
      cases hd : decodeName n0 with
      | none => exact ⟨Err.parse n0, by rw [e1, hd]⟩
      | some tb =>
        obtain ⟨t, b⟩ := tb
        have h2 : RawName.invalid ∈ ms ∨ ∃ n, RawName.utf8 n ∈ ms ∧ decodeName n = none := by
          rcases h with h | ⟨n, hn, hdn⟩
          · rcases List.mem_cons.mp h with h | h
            · exact absurd h (by simp)
            · exact Or.inl h
          · rcases List.mem_cons.mp hn with hh | hh
            · injection hh with hnn
              subst hnn
              rw [hd] at hdn
              cases hdn
            · exact Or.inr ⟨n, hh, hdn⟩
        obtain ⟨e, he⟩ := ih (insertSorted acc t n0) h2
        refine ⟨e, ?_⟩
        rw [e1, hd]
        exact he

/-- C8: when any directory entry name is invalid text or matches
neither filename pattern (the uncompressed one being tried first by
`decodeName`), the whole index build of `delete_one` fails with an
error, `delete_one` reports that error, and the reclaim iteration that
called it aborts without deleting anything. -/
theorem c8_build_fails_whole (names : List RawName)
    (hbad : RawName.invalid ∈ names ∨ ∃ n, RawName.utf8 n ∈ names ∧ decodeName n = none) :
    (∃ e, buildIndexAux [] names = Except.error e) ∧
    (∀ v : Bool, ∃ e, deleteOneV v names = (Except.error e, [])) ∧
    (∀ (env : Env) (amount : Nat) (v : Bool) (w : World) (e : Err),
      dirNames w = names → needRoom amount w.avail w.total = true →
      (∀ p s, smallestUncompressed w.entries = some (p, s) → ¬ s < w.avail) →
      deleteOneV v names = (Except.error e, []) →
      makeRoomV env amount v w = (Except.error e, [])) := by
  obtain ⟨e0, he0⟩ := buildIndexAux_fails names [] hbad
  refine ⟨⟨e0, he0⟩, ?_, ?_⟩
  · intro v
    refine ⟨e0, ?_⟩
    unfold deleteOneV
    rw [he0]
  · intro env amount v w e hdn hn hnc hD
    rw [makeRoomV_eq_noCompress env amount v w hn hnc]
    rw [hdn, hD]

/-- A name matching neither filename pattern. -/
def badName : Str := ['x']

/-- C8 witness: a single undecodable name makes the build, and
`delete_one`, fail. -/
theorem c8_build_fails_whole_witness :
    (RawName.invalid ∈ [RawName.utf8 badName] ∨
      ∃ n, RawName.utf8 n ∈ [RawName.utf8 badName] ∧ decodeName n = none) ∧
    ((∃ e, buildIndexAux [] [RawName.utf8 badName] = Except.error e) ∧
      (∀ v : Bool, ∃ e, deleteOneV v [RawName.utf8 badName] = (Except.error e, []))) :=
  ⟨Or.inr ⟨badName, by decide, by decide⟩,
    (c8_build_fails_whole [RawName.utf8 badName]
      (Or.inr ⟨badName, by decide, by decide⟩)).1,
    (c8_build_fails_whole [RawName.utf8 badName]
      (Or.inr ⟨badName, by decide, by decide⟩)).2.1⟩

/-- C6: the run first reclaims; a false reclaim ends the run
successfully with no backup created; a true reclaim runs the dump tool
into a file named from the current timestamp in the uncompressed
format and then reclaims again, ignoring the second boolean result but
propagating its error. -/
theorem c6_orchestration (env : Env) (v : Bool) (w0 : World) (now : DT) (dumpOk : Bool)
    (w1 : World) :
    (∀ log, makeRoomV env 10 v w0 = (Except.ok false, log) →
      runMain env v w0 now dumpOk w1 = (Except.ok (), log) ∧
        ∀ n, Event.dump n ∉ log) ∧
    (∀ log, makeRoomV env 10 v w0 = (Except.ok true, log) →
      (dumpOk = false → runMain env v w0 now dumpOk w1 =
        (Except.error (Err.toolFailed pgDumpall), log ++ [Event.dump (encodeName now false)])) ∧
      (dumpOk = true →
        (∀ b log2, makeRoomV env 10 v w1 = (Except.ok b, log2) →
          runMain env v w0 now dumpOk w1 =
            (Except.ok (), log ++ [Event.dump (encodeName now false)] ++ log2)) ∧
        (∀ e log2, makeRoomV env 10 v w1 = (Except.error e, log2) →
          runMain env v w0 now dumpOk w1 =
            (Except.error e, log ++ [Event.dump (encodeName now false)] ++ log2)))) := by
  constructor
  · intro log h0
    constructor
    · unfold runMain
      rw [h0]
    · intro n hmem
      have := makeRoomV_no_dump env 10 v w0 n
      rw [h0] at this
      exact this hmem
  · intro log h0
    constructor
    · intro hdf
      subst hdf
      unfold runMain makeBackup
      rw [h0]
      simp
    · intro hdt
      subst hdt
      constructor
      · intro b log2 h1
        unfold runMain makeBackup
        rw [h0]
        simp only []
        rw [h1]
        simp
      · intro e log2 h1
        unfold runMain makeBackup
        rw [h0]
        simp only []
        rw [h1]
        simp

set_option maxRecDepth 100000 in
/-- C6 witness: a run whose first reclaim reports room dumps one new
backup named from the timestamp and reclaims again. -/
theorem c6_orchestration_witness :
    makeRoomV trivEnv 10 true wFull = (Except.ok true, []) ∧
    runMain trivEnv true wFull ⟨1970, 1, 1, 0, 0, 0⟩ true wFull =
      (Except.ok (), [] ++ [Event.dump (encodeName ⟨1970, 1, 1, 0, 0, 0⟩ false)] ++ []) := by
  have hFull : makeRoomV trivEnv 10 true wFull = (Except.ok true, []) :=
    makeRoomV_eq_enough trivEnv 10 true wFull (by decide)
  exact ⟨hFull,
    (((c6_orchestration trivEnv true wFull ⟨1970, 1, 1, 0, 0, 0⟩ true wFull).2 [] hFull).2
      rfl).1 true [] hFull⟩
